import Mathlib

/-!
Verification development for the incremental Slack-history archiver
(`bedrockIntegration.py`).  The Python source is shallowly embedded:

* strings are `List Char`, byte counts use `Char.utf8Size` (UTF-8);
* Slack timestamps (decimal-second strings) are modelled as exact
  rationals `ℚ`; `datetime.fromtimestamp(...).isoformat()` is a strictly
  monotone injective encoding of the timestamp, so the `datetime` field of
  a reconstructed message is modelled by the timestamp itself;
* external services (Slack API, S3) are oracle parameters; `s3.put_object`
  calls are collected as the list of written batches;
* the unbounded `while True:` pagination loop is modelled with explicit
  fuel, with `outOfFuel` marking exhaustion of the fuel, never of the loop.
-/

/-- Byte length of a character list under UTF-8, i.e. `len(s.encode('utf-8'))`. -/
def byteLen (cs : List Char) : Nat := (cs.map Char.utf8Size).sum

/-- Boolean test that `pat` is an initial segment of `s` (used to model the
left-to-right scanning of Python `str.replace`). -/
def begins : List Char → List Char → Bool
  | [], _ => true
  | _ :: _, [] => false
  | p :: ps, c :: cs => p == c && begins ps cs

/-- Join a list of pieces with a separator, as Python `", ".join` does. -/
def joinSep (sep : List Char) : List (List Char) → List Char
  | [] => []
  | [x] => x
  | x :: y :: rest => x ++ sep ++ joinSep sep (y :: rest)

/-- Fuel-indexed model of Python `str.replace(pat, rep)` for a nonempty
pattern: scan left to right, replace each non-overlapping occurrence,
and continue after the inserted replacement (no rescanning of `rep`). -/
def replaceAllF (pat rep : List Char) : Nat → List Char → List Char
  | _, [] => []
  | 0, s => s
  | fuel + 1, c :: cs =>
    if begins pat (c :: cs) then
      rep ++ replaceAllF pat rep fuel (List.drop pat.length (c :: cs))
    else
      c :: replaceAllF pat rep fuel cs

/-- Python `s.replace(pat, rep)` for nonempty `pat` (every call site below
passes a mention token, which is nonempty). -/
def replaceAll (pat rep s : List Char) : List Char := replaceAllF pat rep s.length s

/-- The literal mention token of a user id: the source builds it by the
f-string on line 92 of `bedrockIntegration.py`. -/
def tok (i : List Char) : List Char := '<' :: '@' :: (i ++ ['>'])

/-- The replacement text for a user name: the f-string on line 92. -/
def repOf (n : List Char) : List Char := '@' :: n

/-- Embeds `normalize_slack_text` (lines 89-93): a fold of
`text.replace(f"<@{user_id}>", f"@{user_name}")` over the user mapping in
its iteration order. -/
def normalize_slack_text (text : List Char) (users : List (List Char × List Char)) : List Char :=
  users.foldl (fun t p => replaceAll (tok p.1) (repOf p.2) t) text

/-- First user (in mapping order) whose mention token occurs at the head
of `s`. -/
def findMatch (users : List (List Char × List Char)) (s : List Char) :
    Option (List Char × List Char) :=
  users.find? (fun p => begins (tok p.1) s)

/-- Modelled from the spec: the one-pass simultaneous replacement the spec
attributes to the normalizer ("replaces every mention token of the literal
form `<@{userId}>` with `@{displayName}` ... unknown ids are left as the
raw mention token").  Scans the text once; where the token of a known id
starts, the token is replaced with `@{name}` and the scan continues after
it; every other character is copied verbatim.  Fuel-indexed. -/
def specNormalizeF (users : List (List Char × List Char)) : Nat → List Char → List Char
  | _, [] => []
  | 0, s => s
  | fuel + 1, c :: cs =>
    match findMatch users (c :: cs) with
    | some p => repOf p.2 ++ specNormalizeF users fuel (List.drop (tok p.1).length (c :: cs))
    | none => c :: specNormalizeF users fuel cs

/-- Modelled from the spec: simultaneous exhaustive mention replacement. -/
def specNormalize (users : List (List Char × List Char)) (s : List Char) : List Char :=
  specNormalizeF users s.length s

/-- Well-formedness of a user mapping under which the sequential
replacement of the source coincides with the spec's simultaneous
replacement: ids contain none of `<`, `@`, `>`; names contain neither `<`
nor `>`; and no name is an initial segment of any id. -/
def cleanUsers (users : List (List Char × List Char)) : Prop :=
  ∀ p ∈ users,
    ('<' ∉ p.1 ∧ '@' ∉ p.1 ∧ '>' ∉ p.1) ∧
    ('<' ∉ p.2 ∧ '>' ∉ p.2) ∧
    ∀ q ∈ users, begins p.2 q.1 = false

/-- Python `str.split(sep)` on a single-character separator: all parts are
kept, including empty ones, and a split of `n` separators has `n + 1`
parts. -/
def splitOnChar (sep : Char) : List Char → List (List Char)
  | [] => [[]]
  | c :: rest =>
    match splitOnChar sep rest with
    | [] => [[c]]
    | p :: ps => if c = sep then [] :: p :: ps else (c :: p) :: ps

/-- Python `str`-level whitespace recognized by `int()`. -/
def isPySpace (c : Char) : Bool :=
  c == ' ' || c == '\t' || c == '\n' || c == '\r' || c == '\x0b' || c == '\x0c'

/-- Strip leading and trailing whitespace. -/
def stripPy (s : List Char) : List Char :=
  ((s.dropWhile isPySpace).reverse.dropWhile isPySpace).reverse

/-- Decimal value of a digit string. -/
def digitsToNat (ds : List Char) : Nat := ds.foldl (fun a c => 10 * a + (c.toNat - 48)) 0

/-- Models Python `int(s)` on a decimal string: optional surrounding
whitespace, optional sign, then a nonempty run of ASCII digits; `none`
models the `ValueError` branch.  (Digit-group underscores are omitted:
the strings this is applied to are the part of a file name before the
first `_`, which never contains an underscore.) -/
def pyInt (s : List Char) : Option Int :=
  match stripPy s with
  | '+' :: ds => if ds ≠ [] ∧ ds.all Char.isDigit then some (Int.ofNat (digitsToNat ds)) else none
  | '-' :: ds => if ds ≠ [] ∧ ds.all Char.isDigit then some (-(Int.ofNat (digitsToNat ds))) else none
  | ds => if ds ≠ [] ∧ ds.all Char.isDigit then some (Int.ofNat (digitsToNat ds)) else none

/-- The leading integer segment of a key's file name:
`int(obj["Key"].split("/")[-1].split("_")[0])` guarded by `try/except`
(lines 104-109). -/
def leadingStamp (key : List Char) : Option Int :=
  pyInt ((splitOnChar '_' ((splitOnChar '/' key).getLastD [])).headD [])

/-- Python `max(xs)` on a nonempty list, `none` for the empty one (the
source writes `max(timestamps) if timestamps else None`). -/
def pyMax : List Int → Option Int
  | [] => none
  | x :: xs => some (xs.foldl max x)

/-- Embeds `get_latest_timestamp` (lines 96-110) as a function of the list
of object keys listed under the channel prefix; the empty list models the
`"Contents" not in response` branch. -/
def get_latest_timestamp (keys : List (List Char)) : Option Int :=
  if keys = [] then none
  else pyMax (keys.filterMap leadingStamp)

/-- A message of a Topic: `user` is a resolved display name, `text` is
normalized, `datetime` is the encoded timestamp (`ℚ` for the
reconstructor, the ISO string for the stored JSON). -/
structure TopicMessage (δ : Type) where
  user : List Char
  text : List Char
  datetime : δ
  deriving DecidableEq

/-- A reconstructed topic: normalized root text plus the ordered messages. -/
structure Topic (δ : Type) where
  topic : List Char
  messages : List (TopicMessage δ)
  deriving DecidableEq

/-- A raw Slack message as consumed by `fetch_channel_history`: `ts` is
the timestamp, `thread_ts` the optional thread id, `reply_broadcast` the
presence-and-truthiness of that flag, `user` and `text` optional fields. -/
structure RawMessage where
  ts : ℚ
  thread_ts : Option ℚ
  reply_broadcast : Bool
  user : Option (List Char)
  text : Option (List Char)
  deriving DecidableEq

/-- The default user string used at both `.get` call sites in line 72. -/
def unknownUser : List Char := "unknown".data

/-- Python `dict.get(k, d)` on the user mapping. -/
def dictGet (users : List (List Char × List Char)) (k d : List Char) : List Char :=
  match users.find? (fun p => p.1 == k) with
  | some p => p.2
  | none => d

/-- One entry of a topic's `messages` list as built on lines 71-75 and
79-83: resolved user, normalized text, and the datetime encoding of the
message timestamp. -/
def mkTopicMessage (users : List (List Char × List Char)) (m : RawMessage) : TopicMessage ℚ :=
  { user := dictGet users (m.user.getD unknownUser) unknownUser
    text := normalize_slack_text (m.text.getD []) users
    datetime := m.ts }

/-- The topic built for one thread root (lines 66-84): the root-derived
first message, then one message per reply in `thread_replies[1:]`.  The
`oracle` models `fetch_thread_replies` for this channel. -/
def mkTopic (oracle : ℚ → List RawMessage) (users : List (List Char × List Char))
    (m : RawMessage) : Topic ℚ :=
  { topic := normalize_slack_text (m.text.getD []) users
    messages := mkTopicMessage users m :: ((oracle m.ts).drop 1).map (mkTopicMessage users) }

/-- The structuring loop of `fetch_channel_history` (lines 60-86): skip
broadcast replies, build one topic per message whose `thread_ts` equals
its own `ts`, append in scan order. -/
def structure_history (oracle : ℚ → List RawMessage) (users : List (List Char × List Char))
    (msgs : List RawMessage) : List (Topic ℚ) :=
  msgs.flatMap (fun m =>
    if m.reply_broadcast then []
    else if m.thread_ts = some m.ts then [mkTopic oracle users m]
    else [])

/-- The membership test of the structuring loop, as a Boolean. -/
def isKeptRoot (m : RawMessage) : Bool :=
  !m.reply_broadcast && decide (m.thread_ts = some m.ts)

/-- One page of `conversations_history`, keyed by the `latest` bound the
loop passes (channel, limit and `oldest` are fixed for a run and folded
into the oracle). -/
structure Page where
  messages : List RawMessage
  has_more : Bool

/-- Outcome of the pagination loop: normal exit with the accumulated
messages and the number of fetch calls, the `IndexError` of
`response["messages"][-1]` on an empty page, or fuel exhaustion. -/
inductive PaginateResult where
  | ok (msgs : List RawMessage) (calls : Nat)
  | indexError
  | outOfFuel
  deriving DecidableEq

/-- The pagination loop of `fetch_channel_history` (lines 44-58): fetch a
page at the current `latest` bound, accumulate its messages, stop if
`has_more` is false, otherwise move `latest` to the last message's
timestamp.  Fuel-indexed since the source loop is `while True:`. -/
def paginate (oracle : ℚ → Page) : Nat → ℚ → PaginateResult
  | 0, _ => .outOfFuel
  | fuel + 1, latest_ts =>
    if (oracle latest_ts).has_more then
      match (oracle latest_ts).messages.getLast? with
      | none => .indexError
      | some last =>
        match paginate oracle fuel last.ts with
        | .ok ms calls => .ok ((oracle latest_ts).messages ++ ms) (calls + 1)
        | r => r
    else .ok (oracle latest_ts).messages 1

/-- The sequence of `latest` bounds the loop would visit: `some l` after
`k` steps means the first `k` pages all had `has_more` true and a last
message, and the `k`-th bound is `l`. -/
def latestSeq (oracle : ℚ → Page) : Nat → ℚ → Option ℚ
  | 0, latest_ts => some latest_ts
  | k + 1, latest_ts =>
    if (oracle latest_ts).has_more then
      match (oracle latest_ts).messages.getLast? with
      | some last => latestSeq oracle k last.ts
      | none => none
    else none

/-- Choice of hexadecimal digit characters (Python's `json` emits
lowercase `\u00xx` escapes). -/
def hexDigitChar (n : Nat) : Char :=
  if n < 10 then Char.ofNat (48 + n) else Char.ofNat (87 + n)

/-- Bytes a character contributes inside a JSON string emitted with
`ensure_ascii=False`: `"` and `\` are backslash-escaped, control
characters use the short escapes or `\u00xx`, everything else is emitted
as-is. -/
def jsonEsc (c : Char) : List Char :=
  if c = '"' then ['\\', '"']
  else if c = '\\' then ['\\', '\\']
  else if c.toNat < 32 then
    if c = '\n' then ['\\', 'n']
    else if c = '\t' then ['\\', 't']
    else if c = '\r' then ['\\', 'r']
    else if c = '\x08' then ['\\', 'b']
    else if c = '\x0c' then ['\\', 'f']
    else ['\\', 'u', '0', '0', hexDigitChar (c.toNat / 16), hexDigitChar (c.toNat % 16)]
  else [c]

/-- Rendering of a JSON string literal. -/
def renderStr (s : List Char) : List Char := '"' :: (s.flatMap jsonEsc ++ ['"'])

/-- Compact rendering (default separators `", "` and `": "`, as in
`json.dumps(entry, ensure_ascii=False)`) of one message dict. -/
def renderMsgC (m : TopicMessage (List Char)) : List Char :=
  ("\x7b\"user\": ".data) ++ renderStr m.user ++
    (", \"text\": ".data) ++ renderStr m.text ++
    (", \"datetime\": ".data) ++ renderStr m.datetime ++ ("\x7d".data)

/-- Compact rendering of the `messages` list. -/
def renderMsgsC (ms : List (TopicMessage (List Char))) : List Char :=
  ("[".data) ++ joinSep (", ".data) (ms.map renderMsgC) ++ ("]".data)

/-- Compact rendering of one topic dict; `entry_size` on line 119 is the
UTF-8 byte length of this rendering. -/
def renderTopicC (t : Topic (List Char)) : List Char :=
  ("\x7b\"topic\": ".data) ++ renderStr t.topic ++
    (", \"messages\": ".data) ++ renderMsgsC t.messages ++ ("\x7d".data)

/-- Embeds `len(json.dumps(entry, ensure_ascii=False).encode('utf-8'))`
(line 119). -/
def entrySize (t : Topic (List Char)) : Nat := byteLen (renderTopicC t)

/-- Indented rendering (`indent=2`, item separator `","`, key separator
`": "`) of one message dict, at nesting depth 3 (keys at 8 spaces). -/
def renderMsgI (m : TopicMessage (List Char)) : List Char :=
  ("\x7b\n        \"user\": ".data) ++ renderStr m.user ++
    (",\n        \"text\": ".data) ++ renderStr m.text ++
    (",\n        \"datetime\": ".data) ++ renderStr m.datetime ++ ("\n      \x7d".data)

/-- Indented rendering of a `messages` list (items at 6 spaces). -/
def renderMsgsI (ms : List (TopicMessage (List Char))) : List Char :=
  match ms with
  | [] => "[]".data
  | _ =>
    ("[\n".data) ++ joinSep (",\n".data) (ms.map (fun m => ("      ".data) ++ renderMsgI m)) ++
      ("\n    ]".data)

/-- Indented rendering of one topic dict (keys at 4 spaces). -/
def renderTopicI (t : Topic (List Char)) : List Char :=
  ("\x7b\n    \"topic\": ".data) ++ renderStr t.topic ++
    (",\n    \"messages\": ".data) ++ renderMsgsI t.messages ++ ("\n  \x7d".data)

/-- Embeds the written object body
`json.dumps(file_data, ensure_ascii=False, indent=2)` (lines 125 and 139). -/
def renderBody (ts : List (Topic (List Char))) : List Char :=
  match ts with
  | [] => "[]".data
  | _ =>
    ("[\n".data) ++ joinSep (",\n".data) (ts.map (fun t => ("  ".data) ++ renderTopicI t)) ++
      ("\n]".data)

/-- The constants of lines 17-18. -/
def MiB : Nat := 1024 ^ 2

/-- The 10 MiB byte budget of line 18. -/
def MAX_FILE_SIZE : Nat := 10 * MiB

/-- The accumulation loop of `save_to_s3` (lines 113-142), returning the
batches written to storage, in write order.  State: the remaining
entries, `total_size`, and the pending `file_data`. -/
def saveChunks :
    List (Topic (List Char)) → Nat → List (Topic (List Char)) → List (List (Topic (List Char)))
  | [], _, file_data => if file_data = [] then [] else [file_data]
  | entry :: rest, total_size, file_data =>
    if MAX_FILE_SIZE < total_size + entrySize entry ∧ file_data ≠ [] then
      file_data :: saveChunks rest (entrySize entry) [entry]
    else
      saveChunks rest (total_size + entrySize entry) (file_data ++ [entry])

/-- Embeds `save_to_s3`: the batches written for a topic sequence. -/
def save_to_s3 (data : List (Topic (List Char))) : List (List (Topic (List Char))) :=
  saveChunks data 0 []

/-- A topic message with one-byte fields, for concrete computations. -/
def msgU : TopicMessage (List Char) := ⟨"u".data, "t".data, "d".data⟩

/-- A topic holding `n` copies of `msgU` and an empty root text. -/
def repTopic (n : Nat) : Topic (List Char) := ⟨[], List.replicate n msgU⟩

/-- A topic whose root text is `n` copies of `a`, with no messages. -/
def aTopic (n : Nat) : Topic (List Char) := ⟨List.replicate n 'a', []⟩

/-- Example object keys from the spec's watermark test (section 8). -/
def exKeys : List (List Char) :=
  [("slack_history/general/C1/1000_aaa.json".data),
   ("slack_history/general/C1/2000_bbb.json".data),
   ("slack_history/general/C1/not_a_number.json".data)]

/-- A concrete user mapping matching the spec's normalizer example. -/
def usersW : List (List Char × List Char) := [("U1".data, "alice".data)]

/-- A concrete thread root. -/
def rootW : RawMessage := ⟨1, some 1, false, some ("U1".data), some ("hi <@U1>".data)⟩

/-- A concrete thread reply, one second after the root. -/
def replyW : RawMessage := ⟨2, some 1, false, none, some ("yo".data)⟩

/-- A thread-reply oracle returning the root followed by one reply. -/
def oracleW : ℚ → List RawMessage := fun _ => [rootW, replyW]

/-- A broadcast-flagged message whose thread id equals its own timestamp. -/
def bcRootW : RawMessage := ⟨1, some 1, true, none, none⟩

/-- A plain thread root with no user or text fields. -/
def rootPlainW : RawMessage := ⟨1, some 1, false, none, none⟩

/-- A broadcast-flagged reply inside the thread of `rootPlainW`. -/
def bcReplyW : RawMessage := ⟨2, some 1, true, none, none⟩

/-- A thread-reply oracle whose reply list contains a broadcast-flagged
reply, as `conversations_replies` returns for a broadcast reply. -/
def oracleBCW : ℚ → List RawMessage := fun _ => [rootPlainW, bcReplyW]

/-- Invariant of every batch the writer flushes: its tracked accumulated
size (the sum of the compact per-Topic serialized sizes) fits the budget,
unless the batch is a single Topic that alone exceeds it. -/
def batchOK (b : List (Topic (List Char))) : Prop :=
  (b.map entrySize).sum ≤ MAX_FILE_SIZE ∨ ∃ t, b = [t] ∧ MAX_FILE_SIZE < entrySize t

theorem paginate_zero (oracle : ℚ → Page) (latest_ts : ℚ) :
    paginate oracle 0 latest_ts = .outOfFuel := rfl

theorem paginate_succ (oracle : ℚ → Page) (fuel : Nat) (latest_ts : ℚ) :
    paginate oracle (fuel + 1) latest_ts =
      if (oracle latest_ts).has_more then
        match (oracle latest_ts).messages.getLast? with
        | none => .indexError
        | some last =>
          match paginate oracle fuel last.ts with
          | .ok ms calls => .ok ((oracle latest_ts).messages ++ ms) (calls + 1)
          | r => r
      else .ok (oracle latest_ts).messages 1 := rfl

theorem latestSeq_zero (oracle : ℚ → Page) (latest_ts : ℚ) :
    latestSeq oracle 0 latest_ts = some latest_ts := rfl

theorem latestSeq_succ (oracle : ℚ → Page) (k : Nat) (latest_ts : ℚ) :
    latestSeq oracle (k + 1) latest_ts =
      if (oracle latest_ts).has_more then
        match (oracle latest_ts).messages.getLast? with
        | some last => latestSeq oracle k last.ts
        | none => none
      else none := rfl

theorem latestSeq_halt (oracle : ℚ → Page) :
    ∀ (k : Nat) (start l : ℚ), latestSeq oracle k start = some l →
      (oracle l).has_more = false →
      ∃ msgs, paginate oracle (k + 1) start = .ok msgs (k + 1) := by
  intro k
  induction k with
  | zero =>
    intro start l h hm
    rw [latestSeq_zero, Option.some.injEq] at h
    subst h
    refine ⟨(oracle start).messages, ?_⟩
    rw [paginate_succ, hm]
    simp
  | succ k ih =>
    intro start l h hm
    rw [latestSeq_succ] at h
    cases hpm : (oracle start).has_more with
    | false => rw [hpm] at h; simp at h
    | true =>
      rw [hpm] at h
      simp only [if_true] at h
      cases hlast : (oracle start).messages.getLast? with
      | none => rw [hlast] at h; simp at h
      | some last =>
        rw [hlast] at h
        obtain ⟨msgs, hp⟩ := ih last.ts l h hm
        refine ⟨(oracle start).messages ++ msgs, ?_⟩
        rw [paginate_succ, hpm, hlast]
        simp only [if_true]
        rw [hp]

theorem paginate_safe (oracle : ℚ → Page)
    (hne : ∀ l, (oracle l).has_more = true → (oracle l).messages ≠ []) :
    ∀ (fuel : Nat) (start : ℚ), paginate oracle fuel start ≠ .indexError := by
  intro fuel
  induction fuel with
  | zero =>
    intro start
    rw [paginate_zero]
    exact fun h => PaginateResult.noConfusion h
  | succ fuel ih =>
    intro start
    rw [paginate_succ]
    cases hpm : (oracle start).has_more with
    | false => simp
    | true =>
      cases hlast : (oracle start).messages.getLast? with
      | none => exact fun _ => (hne start hpm) (List.getLast?_eq_none_iff.mp hlast)
      | some last =>
        cases hrec : paginate oracle fuel last.ts with
        | ok ms calls => simp [hrec]
        | indexError => exact fun _ => (ih last.ts) hrec
        | outOfFuel => simp [hrec]

theorem paginate_indexError_src (oracle : ℚ → Page) :
    ∀ (fuel : Nat) (start : ℚ), paginate oracle fuel start = .indexError →
      ∃ k l, latestSeq oracle k start = some l ∧ (oracle l).has_more = true ∧
        (oracle l).messages = [] := by
  intro fuel
  induction fuel with
  | zero =>
    intro start h
    rw [paginate_zero] at h
    exact PaginateResult.noConfusion h
  | succ fuel ih =>
    intro start h
    rw [paginate_succ] at h
    cases hpm : (oracle start).has_more with
    | false => rw [hpm] at h; simp at h
    | true =>
      cases hlast : (oracle start).messages.getLast? with
      | none =>
        exact ⟨0, start, latestSeq_zero oracle start, hpm, List.getLast?_eq_none_iff.mp hlast⟩
      | some last =>
        rw [hpm, hlast] at h
        simp at h
        cases hrec : paginate oracle fuel last.ts with
        | ok ms calls => rw [hrec] at h; simp at h
        | outOfFuel => rw [hrec] at h; simp at h
        | indexError =>
          obtain ⟨k, l, hseq, hm, hempty⟩ := ih last.ts hrec
          refine ⟨k + 1, l, ?_, hm, hempty⟩
          rw [latestSeq_succ, hpm, hlast]
          simpa using hseq

/-- C8: for every history oracle whose first page reports `has_more =
false`, the paginator terminates after exactly one fetch, returning
exactly that page's messages; and in general the loop terminates (with
call count `k + 1`) whenever the `k`-th visited bound's page reports
`has_more = false`. -/
theorem c8_pagination_terminates (oracle : ℚ → Page) (start : ℚ) :
    ((oracle start).has_more = false →
      paginate oracle 1 start = .ok (oracle start).messages 1) ∧
    (∀ k l, latestSeq oracle k start = some l → (oracle l).has_more = false →
      ∃ msgs, paginate oracle (k + 1) start = .ok msgs (k + 1)) := by
  constructor
  · intro hm
    have h := latestSeq_halt oracle 0 start start (latestSeq_zero oracle start) hm
    rw [show (0 : Nat) + 1 = 1 from rfl] at h
    rw [paginate_succ, hm]
    simp
  · intro k l h hm
    exact latestSeq_halt oracle k start l h hm

/-- Witness for C8 at a concrete oracle whose single page has no further
pages: one call, and the output is that page's messages. -/
theorem c8_witness :
    paginate (fun _ => Page.mk [] false) 1 0 = .ok [] 1 :=
  (c8_pagination_terminates (fun _ => Page.mk [] false) 0).1 rfl

/-- C10: the loop reads `response["messages"][-1]` unguarded; if every
page reported with `has_more = true` is nonempty the error branch is
unreachable, and conversely an `IndexError` can only arise from a
reachable page with `has_more = true` and an empty message list. -/
theorem c10_last_access_safety (oracle : ℚ → Page) :
    ((∀ l, (oracle l).has_more = true → (oracle l).messages ≠ []) →
      ∀ fuel start, paginate oracle fuel start ≠ .indexError) ∧
    (∀ fuel start, paginate oracle fuel start = .indexError →
      ∃ k l, latestSeq oracle k start = some l ∧ (oracle l).has_more = true ∧
        (oracle l).messages = []) :=
  ⟨fun hne => paginate_safe oracle hne, paginate_indexError_src oracle⟩

/-- Witness for C10 at a concrete oracle with nonempty pages: no fuel
amount can produce the error branch. -/
theorem c10_witness :
    paginate (fun _ => Page.mk [⟨0, none, false, none, none⟩] true) 2 0 ≠ .indexError :=
  (c10_last_access_safety (fun _ => Page.mk [⟨0, none, false, none, none⟩] true)).1
    (fun l _ => by simp) 2 0


theorem foldl_max_mem (xs : List Int) : ∀ x : Int, xs.foldl max x ∈ x :: xs := by
  induction xs with
  | nil => intro x; simp
  | cons y ys ih =>
    intro x
    rw [List.foldl_cons]
    rcases max_choice x y with hm | hm <;> rw [hm]
    · rcases List.mem_cons.mp (ih x) with h1 | h1
      · exact List.mem_cons.mpr (Or.inl h1)
      · exact List.mem_cons.mpr (Or.inr (List.mem_cons.mpr (Or.inr h1)))
    · rcases List.mem_cons.mp (ih y) with h1 | h1
      · exact List.mem_cons.mpr (Or.inr (List.mem_cons.mpr (Or.inl h1)))
      · exact List.mem_cons.mpr (Or.inr (List.mem_cons.mpr (Or.inr h1)))

theorem foldl_max_le (xs : List Int) : ∀ x : Int, ∀ y ∈ x :: xs, y ≤ xs.foldl max x := by
  induction xs with
  | nil =>
    intro x y hy
    simp at hy
    simp [hy]
  | cons z zs ih =>
    intro x y hy
    rw [List.foldl_cons]
    rcases List.mem_cons.mp hy with rfl | hy2
    · exact le_trans (le_max_left y z) (ih (max y z) _ (List.mem_cons_self _ _))
    · rcases List.mem_cons.mp hy2 with rfl | hy3
      · exact le_trans (le_max_right x y) (ih (max x y) _ (List.mem_cons_self _ _))
      · exact ih (max x z) y (List.mem_cons.mpr (Or.inr hy3))

/-- C4: the watermark resolver returns the maximum, over the listed keys,
of the leading integer segment of the file name, among the keys where
that segment parses; it returns `none` when there are no keys or none
parses; unparseable keys are skipped (the resolver is total). -/
theorem c4_watermark_max (keys : List (List Char)) :
    (get_latest_timestamp keys = none ↔ ∀ key ∈ keys, leadingStamp key = none) ∧
    (∀ v : Int, get_latest_timestamp keys = some v ↔
      ((∃ key ∈ keys, leadingStamp key = some v) ∧
        ∀ key ∈ keys, ∀ w : Int, leadingStamp key = some w → w ≤ v)) := by
  by_cases hk : keys = []
  · subst hk
    constructor
    · simp [get_latest_timestamp]
    · intro v; simp [get_latest_timestamp]
  · have hg : get_latest_timestamp keys = pyMax (keys.filterMap leadingStamp) := by
      simp [get_latest_timestamp, hk]
    cases hfm : keys.filterMap leadingStamp with
    | nil =>
      have hall : ∀ key ∈ keys, leadingStamp key = none := by
        intro key hkey
        rcases hno : leadingStamp key with _ | w
        · rfl
        · exfalso
          have hmem : w ∈ keys.filterMap leadingStamp :=
            List.mem_filterMap.mpr ⟨key, hkey, hno⟩
          rw [hfm] at hmem
          simp at hmem
      constructor
      · constructor
        · intro _; exact hall
        · intro _; rw [hg, hfm]; rfl
      · intro v
        constructor
        · intro hv
          rw [hg, hfm] at hv
          exact absurd hv (by simp [pyMax])
        · rintro ⟨⟨key, hkey, hv⟩, _⟩
          exact absurd hv (by rw [hall key hkey]; simp)
    | cons t ts =>
      have hmax := foldl_max_mem ts t
      have hle := foldl_max_le ts t
      constructor
      · constructor
        · intro hnone
          rw [hg, hfm] at hnone
          exact absurd hnone (by simp [pyMax])
        · intro hall
          exfalso
          have ht : t ∈ keys.filterMap leadingStamp := by
            rw [hfm]; exact List.mem_cons_self _ _
          rcases List.mem_filterMap.mp ht with ⟨key, hkey, hkv⟩
          rw [hall key hkey] at hkv
          exact Option.noConfusion hkv
      · intro v
        rw [hg, hfm]
        constructor
        · intro hv
          have hv2 : ts.foldl max t = v := by simpa [pyMax] using hv
          constructor
          · have hvm : v ∈ keys.filterMap leadingStamp := by
              rw [hfm, ← hv2]; exact hmax
            exact List.mem_filterMap.mp hvm
          · intro key hkey w hw
            have hwm : w ∈ t :: ts := by
              rw [← hfm]; exact List.mem_filterMap.mpr ⟨key, hkey, hw⟩
            rw [← hv2]
            exact hle w hwm
        · rintro ⟨⟨key, hkey, hv⟩, hb⟩
          have hvmem : v ∈ t :: ts := by
            rw [← hfm]; exact List.mem_filterMap.mpr ⟨key, hkey, hv⟩
          have h1 : v ≤ ts.foldl max t := hle v hvmem
          have h2 : ts.foldl max t ≤ v := by
            have hm : ts.foldl max t ∈ keys.filterMap leadingStamp := by
              rw [hfm]; exact hmax
            rcases List.mem_filterMap.mp hm with ⟨key2, hkey2, hkv2⟩
            exact hb key2 hkey2 _ hkv2
          have heq : ts.foldl max t = v := le_antisymm h2 h1
          simp [pyMax, heq]

/-- Witness for C4 on the spec's example keys: the malformed key is
skipped and the maximum leading timestamp 2000 is returned. -/
theorem c4_witness : get_latest_timestamp exKeys = some 2000 := by
  refine ((c4_watermark_max exKeys).2 2000).mpr ⟨?_, ?_⟩
  · exact ⟨("slack_history/general/C1/2000_bbb.json".data), by decide, by decide⟩
  · intro key hkey w hw
    have hmem : key = ("slack_history/general/C1/1000_aaa.json".data) ∨
        key = ("slack_history/general/C1/2000_bbb.json".data) ∨
        key = ("slack_history/general/C1/not_a_number.json".data) := by
      simpa [exKeys] using hkey
    rcases hmem with rfl | rfl | rfl
    · rw [show leadingStamp ("slack_history/general/C1/1000_aaa.json".data) = some 1000 from
        by decide] at hw
      injection hw with h
      omega
    · rw [show leadingStamp ("slack_history/general/C1/2000_bbb.json".data) = some 2000 from
        by decide] at hw
      injection hw with h
      omega
    · rw [show leadingStamp ("slack_history/general/C1/not_a_number.json".data) = none from
        by decide] at hw
      exact Option.noConfusion hw

theorem structure_history_nil (oracle : ℚ → List RawMessage)
    (users : List (List Char × List Char)) : structure_history oracle users [] = [] := rfl

theorem structure_history_cons (oracle : ℚ → List RawMessage)
    (users : List (List Char × List Char)) (m : RawMessage) (msgs : List RawMessage) :
    structure_history oracle users (m :: msgs) =
      (if m.reply_broadcast then []
       else if m.thread_ts = some m.ts then [mkTopic oracle users m]
       else []) ++ structure_history oracle users msgs := by
  simp [structure_history]

/-- C5: a non-broadcast message that is its own thread root, whose reply
fetch returns the root followed by N replies in strictly ascending
timestamp order (the documented shape of `conversations_replies`),
yields exactly one Topic with N + 1 messages, whose first message is
derived from the root and whose datetimes ascend strictly. -/
theorem c5_thread_topic (oracle : ℚ → List RawMessage) (users : List (List Char × List Char))
    (m root1 : RawMessage) (replies : List RawMessage)
    (hb : m.reply_broadcast = false)
    (ht : m.thread_ts = some m.ts)
    (ho : oracle m.ts = root1 :: replies)
    (hasc : List.Chain' (· < ·) (m.ts :: replies.map RawMessage.ts)) :
    structure_history oracle users [m] = [mkTopic oracle users m] ∧
    (mkTopic oracle users m).messages.length = replies.length + 1 ∧
    (mkTopic oracle users m).messages.head? = some (mkTopicMessage users m) ∧
    (mkTopic oracle users m).messages.map TopicMessage.datetime =
      m.ts :: replies.map RawMessage.ts ∧
    List.Chain' (· < ·) ((mkTopic oracle users m).messages.map TopicMessage.datetime) := by
  have hmsg : (mkTopic oracle users m).messages =
      mkTopicMessage users m :: replies.map (mkTopicMessage users) := by
    simp [mkTopic, ho]
  have hdt : (mkTopic oracle users m).messages.map TopicMessage.datetime =
      m.ts :: replies.map RawMessage.ts := by
    rw [hmsg]
    simp [List.map_map, Function.comp, mkTopicMessage]
  refine ⟨?_, ?_, ?_, hdt, ?_⟩
  · rw [structure_history_cons, hb]
    simp [ht, structure_history]
  · rw [hmsg]; simp
  · rw [hmsg]; rfl
  · rw [hdt]; exact hasc

/-- Witness for C5 at a concrete root with one reply. -/
theorem c5_witness :
    structure_history oracleW usersW [rootW] = [mkTopic oracleW usersW rootW] ∧
    (mkTopic oracleW usersW rootW).messages.length = [replyW].length + 1 ∧
    (mkTopic oracleW usersW rootW).messages.head? = some (mkTopicMessage usersW rootW) ∧
    (mkTopic oracleW usersW rootW).messages.map TopicMessage.datetime =
      rootW.ts :: [replyW].map RawMessage.ts ∧
    List.Chain' (· < ·) ((mkTopic oracleW usersW rootW).messages.map TopicMessage.datetime) :=
  c5_thread_topic oracleW usersW rootW rootW [replyW] rfl rfl rfl (by
    simp only [rootW, replyW, List.map_cons, List.map_nil, List.chain'_cons,
      List.chain'_singleton, and_true]
    norm_num)

/-- C6 as stated is violated by a broadcast-flagged thread root: its
thread identifier equals its own timestamp, yet no Topic is emitted. -/
theorem c6_counterexample :
    structure_history (fun _ => []) [] [bcRootW] = [] ∧
    bcRootW.thread_ts = some bcRootW.ts ∧ bcRootW.reply_broadcast = true :=
  ⟨rfl, rfl, rfl⟩

/-- C6 amended: the reconstructor emits one Topic per non-broadcast
message whose thread identifier equals its own timestamp, in scan order,
and no Topic for any other message. -/
theorem c6_roots_only (oracle : ℚ → List RawMessage) (users : List (List Char × List Char))
    (msgs : List RawMessage) :
    structure_history oracle users msgs =
      (msgs.filter isKeptRoot).map (mkTopic oracle users) := by
  induction msgs with
  | nil => rfl
  | cons m rest ih =>
    rw [structure_history_cons, List.filter_cons, ih]
    cases hrb : m.reply_broadcast with
    | true => simp [isKeptRoot, hrb]
    | false =>
      by_cases hth : m.thread_ts = some m.ts
      · simp [isKeptRoot, hrb, hth]
      · simp [isKeptRoot, hrb, hth]

/-- C7 as stated is violated through the reply fetch: a broadcast-flagged
reply returned by the thread-reply oracle is mapped into the Topic's
messages unfiltered. -/
theorem c7_counterexample :
    bcReplyW.reply_broadcast = true ∧
    ∃ T ∈ structure_history oracleBCW [] [rootPlainW],
      mkTopicMessage [] bcReplyW ∈ T.messages := by
  decide

/-- C7 amended: a broadcast-flagged message of the input history
contributes no Topic: deleting it from the input leaves the output
unchanged.  (Broadcast-flagged replies inside a fetched thread are kept.) -/
theorem c7_broadcast_dropped (oracle : ℚ → List RawMessage)
    (users : List (List Char × List Char)) (m : RawMessage)
    (msgs1 msgs2 : List RawMessage) (hb : m.reply_broadcast = true) :
    structure_history oracle users (msgs1 ++ m :: msgs2) =
      structure_history oracle users (msgs1 ++ msgs2) := by
  induction msgs1 with
  | nil =>
    rw [List.nil_append, List.nil_append, structure_history_cons, hb]
    simp
  | cons a rest ih =>
    rw [List.cons_append, List.cons_append, structure_history_cons, structure_history_cons, ih]

/-- Witness for C7 at a concrete broadcast reply appearing in the input
history next to its root. -/
theorem c7_witness :
    structure_history oracleBCW [] ([rootPlainW] ++ bcReplyW :: []) =
      structure_history oracleBCW [] ([rootPlainW] ++ []) :=
  c7_broadcast_dropped oracleBCW [] bcReplyW [rootPlainW] [] rfl

theorem byteLen_append (a b : List Char) : byteLen (a ++ b) = byteLen a + byteLen b := by
  simp [byteLen]

theorem byteLen_cons (c : Char) (l : List Char) :
    byteLen (c :: l) = Char.utf8Size c + byteLen l := by
  simp [byteLen]

theorem joinSep_replicate_byteLen (sep x : List Char) :
    ∀ n : Nat, byteLen (joinSep sep (List.replicate (n + 1) x)) =
      (n + 1) * byteLen x + n * byteLen sep := by
  intro n
  induction n with
  | zero => simp [joinSep]
  | succ n ih =>
    have hrep : List.replicate (n + 1 + 1) x = x :: x :: List.replicate n x := by
      rw [List.replicate_succ, List.replicate_succ]
    rw [hrep]
    have hjl : joinSep sep (x :: x :: List.replicate n x) =
        x ++ sep ++ joinSep sep (x :: List.replicate n x) := rfl
    rw [hjl, ← List.replicate_succ, byteLen_append, byteLen_append, ih]
    ring

theorem flatMap_jsonEsc_rep_a :
    ∀ n : Nat, (List.replicate n 'a').flatMap jsonEsc = List.replicate n 'a' := by
  intro n
  induction n with
  | zero => rfl
  | succ n ih =>
    rw [List.replicate_succ, List.flatMap_cons, ih,
      show jsonEsc 'a' = ['a'] from by decide, List.singleton_append, ← List.replicate_succ]

theorem byteLen_replicate_a (n : Nat) : byteLen (List.replicate n 'a') = n := by
  simp [byteLen, List.map_replicate, List.sum_replicate,
    show Char.utf8Size 'a' = 1 from by decide]

theorem renderStr_rep_a_len (n : Nat) : byteLen (renderStr (List.replicate n 'a')) = n + 2 := by
  unfold renderStr
  rw [flatMap_jsonEsc_rep_a, byteLen_cons, byteLen_append, byteLen_replicate_a,
    show Char.utf8Size '"' = 1 from by decide, show byteLen ['"'] = 1 from by decide]
  omega

theorem entrySize_aTopic (n : Nat) : entrySize (aTopic n) = n + 29 := by
  simp only [entrySize, renderTopicC, aTopic]
  rw [byteLen_append, byteLen_append, byteLen_append, byteLen_append, renderStr_rep_a_len]
  rw [show byteLen ("\x7b\"topic\": ".data) = 10 from by decide,
    show byteLen (", \"messages\": ".data) = 14 from by decide,
    show byteLen (renderMsgsC []) = 2 from by decide,
    show byteLen ("\x7d".data) = 1 from by decide]
  omega

theorem renderMsgC_msgU_len : byteLen (renderMsgC msgU) = 43 := by decide

theorem renderMsgsC_rep_len (n : Nat) :
    byteLen (renderMsgsC (List.replicate (n + 1) msgU)) = 45 * (n + 1) := by
  unfold renderMsgsC
  rw [List.map_replicate, byteLen_append, byteLen_append, joinSep_replicate_byteLen,
    renderMsgC_msgU_len,
    show byteLen ("[".data) = 1 from by decide,
    show byteLen ("]".data) = 1 from by decide,
    show byteLen (", ".data) = 2 from by decide]
  ring

theorem entrySize_repTopic (n : Nat) :
    entrySize (repTopic (n + 1)) = 45 * (n + 1) + 27 := by
  simp only [entrySize, renderTopicC, repTopic]
  rw [byteLen_append, byteLen_append, byteLen_append, byteLen_append, renderMsgsC_rep_len]
  rw [show byteLen ("\x7b\"topic\": ".data) = 10 from by decide,
    show byteLen (renderStr []) = 2 from by decide,
    show byteLen (", \"messages\": ".data) = 14 from by decide,
    show byteLen ("\x7d".data) = 1 from by decide]
  omega

theorem renderMsgI_msgU_len : byteLen (renderMsgI msgU) = 75 := by decide

theorem renderMsgsI_rep_len (n : Nat) :
    byteLen (renderMsgsI (List.replicate (n + 1) msgU)) = 83 * (n + 1) + 6 := by
  rw [List.replicate_succ]
  show byteLen (("[\n".data) ++
    joinSep (",\n".data) ((msgU :: List.replicate n msgU).map
      (fun m => ("      ".data) ++ renderMsgI m)) ++ ("\n    ]".data)) = 83 * (n + 1) + 6
  rw [← List.replicate_succ, List.map_replicate, byteLen_append, byteLen_append,
    joinSep_replicate_byteLen, byteLen_append, renderMsgI_msgU_len,
    show byteLen ("[\n".data) = 2 from by decide,
    show byteLen ("      ".data) = 6 from by decide,
    show byteLen (",\n".data) = 2 from by decide,
    show byteLen ("\n    ]".data) = 6 from by decide]
  ring

theorem renderTopicI_rep_len (n : Nat) :
    byteLen (renderTopicI (repTopic (n + 1))) = 83 * (n + 1) + 45 := by
  simp only [renderTopicI, repTopic]
  rw [byteLen_append, byteLen_append, byteLen_append, byteLen_append, renderMsgsI_rep_len]
  rw [show byteLen ("\x7b\n    \"topic\": ".data) = 15 from by decide,
    show byteLen (renderStr []) = 2 from by decide,
    show byteLen (",\n    \"messages\": ".data) = 18 from by decide,
    show byteLen ("\n  \x7d".data) = 4 from by decide]
  omega

theorem renderBody_pair_len (n : Nat) :
    byteLen (renderBody [repTopic (n + 1), repTopic (n + 1)]) = 166 * (n + 1) + 100 := by
  show byteLen (("[\n".data) ++
    joinSep (",\n".data) ([repTopic (n + 1), repTopic (n + 1)].map
      (fun t => ("  ".data) ++ renderTopicI t)) ++ ("\n]".data)) = 166 * (n + 1) + 100
  rw [List.map_cons, List.map_cons, List.map_nil]
  have hj : joinSep (",\n".data)
      [("  ".data) ++ renderTopicI (repTopic (n + 1)),
       ("  ".data) ++ renderTopicI (repTopic (n + 1))] =
      (("  ".data) ++ renderTopicI (repTopic (n + 1))) ++ (",\n".data) ++
        (("  ".data) ++ renderTopicI (repTopic (n + 1))) := rfl
  rw [hj, byteLen_append, byteLen_append, byteLen_append, byteLen_append, byteLen_append,
    renderTopicI_rep_len,
    show byteLen ("[\n".data) = 2 from by decide,
    show byteLen ("  ".data) = 2 from by decide,
    show byteLen (",\n".data) = 2 from by decide,
    show byteLen ("\n]".data) = 2 from by decide]
  ring

theorem saveChunks_nil_eq (total : Nat) (fd : List (Topic (List Char))) :
    saveChunks [] total fd = if fd = [] then [] else [fd] := rfl

theorem saveChunks_cons_eq (e : Topic (List Char)) (rest : List (Topic (List Char)))
    (total : Nat) (fd : List (Topic (List Char))) :
    saveChunks (e :: rest) total fd =
      if MAX_FILE_SIZE < total + entrySize e ∧ fd ≠ [] then
        fd :: saveChunks rest (entrySize e) [e]
      else
        saveChunks rest (total + entrySize e) (fd ++ [e]) := rfl

theorem saveChunks_flatten :
    ∀ (entries : List (Topic (List Char))) (total : Nat) (fd : List (Topic (List Char))),
      (saveChunks entries total fd).flatten = fd ++ entries := by
  intro entries
  induction entries with
  | nil =>
    intro total fd
    rw [saveChunks_nil_eq]
    by_cases h : fd = []
    · simp [h]
    · simp [h]
  | cons e rest ih =>
    intro total fd
    rw [saveChunks_cons_eq]
    by_cases h : MAX_FILE_SIZE < total + entrySize e ∧ fd ≠ []
    · rw [if_pos h]
      simp [ih]
    · rw [if_neg h, ih]
      simp

theorem saveChunks_ne_nil :
    ∀ (entries : List (Topic (List Char))) (total : Nat) (fd : List (Topic (List Char))),
      ∀ b ∈ saveChunks entries total fd, b ≠ [] := by
  intro entries
  induction entries with
  | nil =>
    intro total fd b hb
    rw [saveChunks_nil_eq] at hb
    by_cases h : fd = []
    · rw [if_pos h] at hb; simp at hb
    · rw [if_neg h] at hb
      rcases List.mem_singleton.mp hb with rfl
      exact h
  | cons e rest ih =>
    intro total fd b hb
    rw [saveChunks_cons_eq] at hb
    by_cases h : MAX_FILE_SIZE < total + entrySize e ∧ fd ≠ []
    · rw [if_pos h] at hb
      rcases List.mem_cons.mp hb with rfl | hb2
      · exact h.2
      · exact ih (entrySize e) [e] b hb2
    · rw [if_neg h] at hb
      exact ih (total + entrySize e) (fd ++ [e]) b hb

theorem batchOK_single (t : Topic (List Char)) : batchOK [t] := by
  by_cases h : entrySize t ≤ MAX_FILE_SIZE
  · left; simpa using h
  · right; exact ⟨t, rfl, by omega⟩

theorem saveChunks_batchOK :
    ∀ (entries fd : List (Topic (List Char))),
      (fd = [] ∨ batchOK fd) →
      ∀ b ∈ saveChunks entries ((fd.map entrySize).sum) fd, batchOK b := by
  intro entries
  induction entries with
  | nil =>
    intro fd hfd b hb
    rw [saveChunks_nil_eq] at hb
    by_cases h : fd = []
    · rw [if_pos h] at hb; simp at hb
    · rw [if_neg h] at hb
      rcases List.mem_singleton.mp hb with rfl
      exact hfd.resolve_left h
  | cons e rest ih =>
    intro fd hfd b hb
    rw [saveChunks_cons_eq] at hb
    by_cases h : MAX_FILE_SIZE < (fd.map entrySize).sum + entrySize e ∧ fd ≠ []
    · rw [if_pos h] at hb
      rcases List.mem_cons.mp hb with rfl | hb2
      · exact hfd.resolve_left h.2
      · have heq : entrySize e = (([e] : List (Topic (List Char))).map entrySize).sum := by simp
        rw [heq] at hb2
        exact ih [e] (Or.inr (batchOK_single e)) b hb2
    · rw [if_neg h] at hb
      have heq : (fd.map entrySize).sum + entrySize e =
          ((fd ++ [e]).map entrySize).sum := by simp
      rw [heq] at hb
      refine ih (fd ++ [e]) (Or.inr ?_) b hb
      by_cases hfde : fd = []
      · subst hfde
        exact batchOK_single e
      · have hle : (fd.map entrySize).sum + entrySize e ≤ MAX_FILE_SIZE := by
          rcases not_and_or.mp h with h1 | h1
          · omega
          · exact absurd hfde (by simpa using h1)
        left
        simp only [List.map_append, List.sum_append, List.map_cons, List.map_nil,
          List.sum_cons, List.sum_nil]
        omega

/-- C1: the writer accumulates Topics, flushing the pending batch exactly
when the next Topic would push the tracked size over the 10 MiB budget
and the batch is nonempty, and flushes the final nonempty batch; the
written batches partition the input in order, every written batch is
nonempty, and when every Topic is smaller than the budget but their sizes
sum beyond it, at least two objects are written. -/
theorem c1_chunked_writer (data : List (Topic (List Char)))
    (h1 : ∀ t ∈ data, entrySize t < MAX_FILE_SIZE)
    (h2 : MAX_FILE_SIZE < (data.map entrySize).sum) :
    2 ≤ (save_to_s3 data).length ∧
    (save_to_s3 data).flatten = data ∧
    ∀ b ∈ save_to_s3 data, b ≠ [] := by
  have hfl : (save_to_s3 data).flatten = data := by
    unfold save_to_s3
    rw [saveChunks_flatten]
    rfl
  have hne : ∀ b ∈ save_to_s3 data, b ≠ [] := saveChunks_ne_nil data 0 []
  refine ⟨?_, hfl, hne⟩
  have hOK : ∀ b ∈ save_to_s3 data, batchOK b := saveChunks_batchOK data [] (Or.inl rfl)
  rcases hsv : save_to_s3 data with _ | ⟨b, rest⟩
  · rw [hsv] at hfl
    simp at hfl
    rw [hfl] at h2
    simp [MAX_FILE_SIZE, MiB] at h2
  · rcases rest with _ | ⟨b2, rest2⟩
    · rw [hsv] at hfl
      simp at hfl
      have hOKb : batchOK b := hOK b (by rw [hsv]; exact List.mem_cons_self _ _)
      rcases hOKb with hle | ⟨t, hbt, hgt⟩
      · rw [hfl] at hle
        omega
      · rw [hbt] at hfl
        have hlt : entrySize t < MAX_FILE_SIZE :=
          h1 t (by rw [← hfl]; exact List.mem_cons_self _ _)
        omega
    · simp

/-- Witness for C1: two topics of about 6 MB each, both under the budget,
jointly over it; the writer must emit at least two objects. -/
theorem c1_witness :
    2 ≤ (save_to_s3 [aTopic 6000000, aTopic 6000000]).length ∧
    (save_to_s3 [aTopic 6000000, aTopic 6000000]).flatten =
      [aTopic 6000000, aTopic 6000000] ∧
    ∀ b ∈ save_to_s3 [aTopic 6000000, aTopic 6000000], b ≠ [] := by
  apply c1_chunked_writer
  · intro t ht
    have hm : t = aTopic 6000000 ∨ t = aTopic 6000000 := by simpa using ht
    rcases hm with rfl | rfl <;>
      · rw [entrySize_aTopic]
        norm_num [MAX_FILE_SIZE, MiB]
  · simp only [List.map_cons, List.map_nil, List.sum_cons, List.sum_nil, entrySize_aTopic]
    norm_num [MAX_FILE_SIZE, MiB]

/-- C2 as stated is violated: two topics whose tracked (compact) sizes
are ≈4.5 MB each are batched together since their sum fits the budget,
but the pretty-printed body actually written (`indent=2`) is ≈16.6 MB,
over the 10 MiB budget, and the batch is not a single oversized Topic. -/
theorem c2_counterexample :
    ¬ (∀ b ∈ save_to_s3 [repTopic 100000, repTopic 100000],
        byteLen (renderBody b) ≤ MAX_FILE_SIZE ∨
        ∃ t, b = [t] ∧ MAX_FILE_SIZE < entrySize t) := by
  intro h
  have he : entrySize (repTopic 100000) = 4500027 := by
    have h0 := entrySize_repTopic 99999
    norm_num at h0
    exact h0
  have hsave : save_to_s3 [repTopic 100000, repTopic 100000] =
      [[repTopic 100000, repTopic 100000]] := by
    unfold save_to_s3
    rw [saveChunks_cons_eq, if_neg (fun hc => hc.2 rfl)]
    rw [saveChunks_cons_eq,
      if_neg (fun hc => absurd hc.1 (by rw [he]; norm_num [MAX_FILE_SIZE, MiB]))]
    rw [saveChunks_nil_eq, if_neg (by simp)]
    simp
  have hb := h [repTopic 100000, repTopic 100000]
    (by rw [hsave]; exact List.mem_cons_self _ _)
  rcases hb with hle | ⟨t, hbt, _⟩
  · have hbody : byteLen (renderBody [repTopic 100000, repTopic 100000]) = 16600100 := by
      have h0 := renderBody_pair_len 99999
      norm_num at h0
      exact h0
    rw [hbody] at hle
    norm_num [MAX_FILE_SIZE, MiB] at hle
  · simp at hbt

/-- C2 amended: every written batch has a tracked accumulated size (the
sum of the per-Topic compact serialized sizes, which is what the writer
budgets) of at most 10 MiB, except a batch holding a single Topic whose
size alone exceeds the budget and which is written unsplit; the
pretty-printed body actually stored can exceed the budget by the
`indent=2` formatting overhead. -/
theorem c2_tracked_size_invariant (data : List (Topic (List Char))) :
    ∀ b ∈ save_to_s3 data,
      (b.map entrySize).sum ≤ MAX_FILE_SIZE ∨
      ∃ t, b = [t] ∧ MAX_FILE_SIZE < entrySize t := by
  intro b hb
  exact saveChunks_batchOK data [] (Or.inl rfl) b hb

/-- Witness for C2 at a concrete single-topic input. -/
theorem c2_witness :
    ((([aTopic 1]).map entrySize).sum ≤ MAX_FILE_SIZE ∨
      ∃ t, ([aTopic 1] : List (Topic (List Char))) = [t] ∧ MAX_FILE_SIZE < entrySize t) :=
  c2_tracked_size_invariant [aTopic 1] [aTopic 1] (by decide)

theorem begins_append (p t : List Char) : begins p (p ++ t) = true := by
  induction p with
  | nil => rfl
  | cons c cs ih => simp [begins, ih]

theorem begins_iff_exists (p s : List Char) : begins p s = true ↔ ∃ t, s = p ++ t := by
  constructor
  · intro h
    induction p generalizing s with
    | nil => exact ⟨s, rfl⟩
    | cons c cs ih =>
      cases s with
      | nil => simp [begins] at h
      | cons d ds =>
        simp only [begins, Bool.and_eq_true, beq_iff_eq] at h
        obtain ⟨t, ht⟩ := ih ds h.2
        exact ⟨t, by rw [List.cons_append, ← h.1, ht]⟩
  · rintro ⟨t, rfl⟩
    exact begins_append p t

theorem begins_nil_of_ne (p : List Char) (hp : p ≠ []) : begins p [] = false := by
  cases p with
  | nil => exact absurd rfl hp
  | cons c cs => rfl

theorem tok_length (i : List Char) : (tok i).length = i.length + 3 := by
  simp [tok]

theorem tok_ne_nil (i : List Char) : tok i ≠ [] := by simp [tok]

theorem replaceAllF_succ_cons (pat rep : List Char) (f : Nat) (c : Char) (cs : List Char) :
    replaceAllF pat rep (f + 1) (c :: cs) =
      if begins pat (c :: cs) then
        rep ++ replaceAllF pat rep f (List.drop pat.length (c :: cs))
      else
        c :: replaceAllF pat rep f cs := rfl

theorem replaceAllF_irrel (pat rep : List Char) (hp : pat ≠ []) :
    ∀ (f1 : Nat) (s : List Char) (f2 : Nat), s.length ≤ f1 → s.length ≤ f2 →
      replaceAllF pat rep f1 s = replaceAllF pat rep f2 s := by
  intro f1
  induction f1 with
  | zero =>
    intro s f2 h1 _
    have hs : s = [] := List.eq_nil_of_length_eq_zero (Nat.le_zero.mp h1)
    subst hs
    cases f2 <;> rfl
  | succ f1 ih =>
    intro s f2 h1 h2
    cases s with
    | nil => cases f2 <;> rfl
    | cons c cs =>
      cases f2 with
      | zero => simp at h2
      | succ f2 =>
        rw [replaceAllF_succ_cons, replaceAllF_succ_cons]
        have hlen : cs.length + 1 ≤ f1 + 1 := by simpa using h1
        have hlen2 : cs.length + 1 ≤ f2 + 1 := by simpa using h2
        have hplen : 1 ≤ pat.length := List.length_pos.mpr hp
        by_cases hb : begins pat (c :: cs) = true
        · rw [if_pos hb, if_pos hb]
          congr 1
          apply ih
          · simp only [List.length_drop, List.length_cons]
            omega
          · simp only [List.length_drop, List.length_cons]
            omega
        · rw [if_neg hb, if_neg hb]
          congr 1
          apply ih <;> omega

theorem replaceAll_nil (pat rep : List Char) : replaceAll pat rep [] = [] := rfl

theorem replaceAll_cons_pos (pat rep : List Char) (c : Char) (cs : List Char)
    (hp : pat ≠ []) (hb : begins pat (c :: cs) = true) :
    replaceAll pat rep (c :: cs) =
      rep ++ replaceAll pat rep (List.drop pat.length (c :: cs)) := by
  show replaceAllF pat rep (cs.length + 1) (c :: cs) = _
  rw [replaceAllF_succ_cons, if_pos hb]
  congr 1
  apply replaceAllF_irrel pat rep hp
  · have hplen : 1 ≤ pat.length := List.length_pos.mpr hp
    simp only [List.length_drop, List.length_cons]
    omega
  · exact le_refl _

theorem replaceAll_cons_neg (pat rep : List Char) (c : Char) (cs : List Char)
    (hp : pat ≠ []) (hb : begins pat (c :: cs) = false) :
    replaceAll pat rep (c :: cs) = c :: replaceAll pat rep cs := by
  show replaceAllF pat rep (cs.length + 1) (c :: cs) = _
  rw [replaceAllF_succ_cons, if_neg (by rw [hb]; exact Bool.false_ne_true)]
  rfl

theorem findMatch_nil (users : List (List Char × List Char)) : findMatch users [] = none := by
  apply List.find?_eq_none.mpr
  intro p _
  rw [begins_nil_of_ne (tok p.1) (tok_ne_nil p.1)]
  exact Bool.false_ne_true

theorem specNormalizeF_succ_cons (users : List (List Char × List Char)) (f : Nat)
    (c : Char) (cs : List Char) :
    specNormalizeF users (f + 1) (c :: cs) =
      match findMatch users (c :: cs) with
      | some p => repOf p.2 ++ specNormalizeF users f (List.drop (tok p.1).length (c :: cs))
      | none => c :: specNormalizeF users f cs := rfl

theorem specNormalizeF_irrel (users : List (List Char × List Char)) :
    ∀ (f1 : Nat) (s : List Char) (f2 : Nat), s.length ≤ f1 → s.length ≤ f2 →
      specNormalizeF users f1 s = specNormalizeF users f2 s := by
  intro f1
  induction f1 with
  | zero =>
    intro s f2 h1 _
    have hs : s = [] := List.eq_nil_of_length_eq_zero (Nat.le_zero.mp h1)
    subst hs
    cases f2 <;> rfl
  | succ f1 ih =>
    intro s f2 h1 h2
    cases s with
    | nil => cases f2 <;> rfl
    | cons c cs =>
      cases f2 with
      | zero => simp at h2
      | succ f2 =>
        rw [specNormalizeF_succ_cons, specNormalizeF_succ_cons]
        have hlen : cs.length + 1 ≤ f1 + 1 := by simpa using h1
        have hlen2 : cs.length + 1 ≤ f2 + 1 := by simpa using h2
        cases hfm : findMatch users (c :: cs) with
        | some p =>
          simp only []
          congr 1
          apply ih
          · simp only [List.length_drop, List.length_cons, tok_length]
            omega
          · simp only [List.length_drop, List.length_cons, tok_length]
            omega
        | none =>
          simp only []
          congr 1
          apply ih <;> omega

theorem specNormalize_nilText (users : List (List Char × List Char)) :
    specNormalize users [] = [] := rfl

theorem specNormalize_match (users : List (List Char × List Char)) (s : List Char)
    (p : List Char × List Char) (h : findMatch users s = some p) :
    specNormalize users s =
      repOf p.2 ++ specNormalize users (List.drop (tok p.1).length s) := by
  cases s with
  | nil => rw [findMatch_nil] at h; exact Option.noConfusion h
  | cons c cs =>
    show specNormalizeF users (cs.length + 1) (c :: cs) = _
    rw [specNormalizeF_succ_cons, h]
    show repOf p.2 ++ specNormalizeF users cs.length (List.drop (tok p.1).length (c :: cs)) = _
    congr 1
    apply specNormalizeF_irrel
    · simp only [List.length_drop, List.length_cons, tok_length]
      omega
    · exact le_refl _

theorem specNormalize_nomatch (users : List (List Char × List Char)) (c : Char)
    (cs : List Char) (h : findMatch users (c :: cs) = none) :
    specNormalize users (c :: cs) = c :: specNormalize users cs := by
  show specNormalizeF users (cs.length + 1) (c :: cs) = _
  rw [specNormalizeF_succ_cons, h]
  rfl

theorem specNormalize_pass (users : List (List Char × List Char)) :
    ∀ (pre s : List Char), (∀ c ∈ pre, c ≠ '<') →
      specNormalize users (pre ++ s) = pre ++ specNormalize users s := by
  intro pre
  induction pre with
  | nil => intro s _; simp
  | cons c pre ih =>
    intro s hpre
    have hnm : findMatch users (c :: (pre ++ s)) = none := by
      apply List.find?_eq_none.mpr
      intro p _
      intro hb
      obtain ⟨t, ht⟩ := (begins_iff_exists _ _).mp hb
      have hc : c = '<' := by
        rw [tok, List.cons_append] at ht
        exact (List.cons.injEq _ _ _ _ |>.mp ht).1
      exact hpre c (List.mem_cons_self _ _) hc
    rw [List.cons_append, specNormalize_nomatch users c (pre ++ s) hnm,
      ih s (fun d hd => hpre d (List.mem_cons.mpr (Or.inr hd))), List.cons_append]

theorem replaceAll_pass (pat rep : List Char) (hp : pat ≠ []) :
    ∀ (a s : List Char),
      (∀ a1 c a2, a = a1 ++ c :: a2 → begins pat (c :: (a2 ++ s)) = false) →
      replaceAll pat rep (a ++ s) = a ++ replaceAll pat rep s := by
  intro a
  induction a with
  | nil => intro s _; simp
  | cons c a ih =>
    intro s hno
    have hb : begins pat (c :: (a ++ s)) = false := hno [] c a rfl
    rw [List.cons_append, replaceAll_cons_neg pat rep c (a ++ s) hp hb,
      ih s (fun a1 d a2 hsplit => hno (c :: a1) d a2 (by rw [hsplit, List.cons_append])),
      List.cons_append]

theorem begins_sep_eq (e : Char) :
    ∀ (i j z : List Char), e ∉ i → e ∉ j →
      begins (i ++ [e]) (j ++ (e :: z)) = true → i = j := by
  intro i
  induction i with
  | nil =>
    intro j z _ hj hb
    cases j with
    | nil => rfl
    | cons d js =>
      exfalso
      simp only [List.nil_append, List.cons_append, begins, Bool.and_eq_true, beq_iff_eq] at hb
      exact hj (List.mem_cons.mpr (Or.inl hb.1))
  | cons c ci ih =>
    intro j z hi hj hb
    cases j with
    | nil =>
      exfalso
      simp only [List.nil_append, List.cons_append, begins, Bool.and_eq_true, beq_iff_eq] at hb
      exact hi (List.mem_cons.mpr (Or.inl hb.1.symm))
    | cons d js =>
      simp only [List.cons_append, begins, Bool.and_eq_true, beq_iff_eq] at hb
      obtain ⟨hcd, hb2⟩ := hb
      have hrec := ih js z (fun hx => hi (List.mem_cons.mpr (Or.inr hx)))
        (fun hx => hj (List.mem_cons.mpr (Or.inr hx))) hb2
      rw [hcd, hrec]

theorem tok_begins_eq (i j z : List Char) (hi : '>' ∉ i) (hj : '>' ∉ j)
    (hb : begins (tok i) (tok j ++ z) = true) : i = j := by
  apply begins_sep_eq '>' i j z hi hj
  simp only [tok, List.append_eq, List.cons_append, List.append_assoc, List.singleton_append,
    begins, Bool.and_eq_true, beq_iff_eq, beq_self_eq_true, Bool.true_and] at hb ⊢
  exact hb

theorem begins_of_begins_both :
    ∀ (x y s : List Char), begins x s = true → begins y s = true →
      begins x y = true ∨ begins y x = true := by
  intro x
  induction x with
  | nil => intro y s _ _; left; rfl
  | cons c ci ih =>
    intro y s hx hy
    cases y with
    | nil => right; rfl
    | cons d dj =>
      cases s with
      | nil => simp [begins] at hx
      | cons a as =>
        simp only [begins, Bool.and_eq_true, beq_iff_eq] at hx hy
        rcases ih dj as hx.2 hy.2 with h | h
        · left
          simp only [begins, Bool.and_eq_true, beq_iff_eq]
          exact ⟨hx.1.trans hy.1.symm, h⟩
        · right
          simp only [begins, Bool.and_eq_true, beq_iff_eq]
          exact ⟨hy.1.trans hx.1.symm, h⟩

theorem begins_through (e : Char) :
    ∀ (y x z : List Char), e ∉ y → begins (x ++ [e]) (y ++ z) = true →
      begins y x = true := by
  intro y
  induction y with
  | nil => intro x z _ _; rfl
  | cons d ys ih =>
    intro x z hy hb
    cases x with
    | nil =>
      exfalso
      simp only [List.nil_append, List.cons_append, begins, Bool.and_eq_true, beq_iff_eq] at hb
      exact hy (List.mem_cons.mpr (Or.inl hb.1))
    | cons c xs =>
      simp only [List.cons_append, begins, Bool.and_eq_true, beq_iff_eq] at hb ⊢
      obtain ⟨hcd, hb2⟩ := hb
      exact ⟨hcd.symm, ih xs z (fun hx => hy (List.mem_cons.mpr (Or.inr hx))) hb2⟩

theorem begins_close_replaceAll (u n : List Char) (hn : '>' ∉ n) :
    ∀ (s x : List Char), '@' ∉ x → '>' ∉ x →
      begins (x ++ ['>']) (replaceAll (tok u) (repOf n) s) = true →
      begins (x ++ ['>']) s = true := by
  intro s
  induction s with
  | nil =>
    intro x _ _ hb
    rw [replaceAll_nil, begins_nil_of_ne (x ++ ['>']) (by simp)] at hb
    exact Bool.noConfusion hb
  | cons c cs ih =>
    intro x hax hgx hb
    cases hcase : begins (tok u) (c :: cs) with
    | true =>
      rw [replaceAll_cons_pos _ _ _ _ (tok_ne_nil u) hcase] at hb
      exfalso
      cases x with
      | nil => simp [begins, repOf] at hb
      | cons d xs =>
        simp only [repOf, List.cons_append, begins, Bool.and_eq_true, beq_iff_eq] at hb
        exact hax (List.mem_cons.mpr (Or.inl hb.1.symm))
    | false =>
      rw [replaceAll_cons_neg _ _ _ _ (tok_ne_nil u) hcase] at hb
      cases x with
      | nil =>
        simp only [List.nil_append, begins, Bool.and_eq_true, beq_iff_eq] at hb ⊢
        exact hb
      | cons d xs =>
        simp only [List.cons_append, begins, Bool.and_eq_true, beq_iff_eq] at hb ⊢
        exact ⟨hb.1, ih xs (fun h => hax (List.mem_cons.mpr (Or.inr h)))
          (fun h => hgx (List.mem_cons.mpr (Or.inr h))) hb.2⟩

theorem begins_tok_replaceAll (u nm w : List Char) (hn : '>' ∉ nm)
    (haw : '@' ∉ w) (hgw : '>' ∉ w) (hnw : begins nm w = false) :
    ∀ (s : List Char),
      begins (tok w) ('<' :: replaceAll (tok u) (repOf nm) s) = true →
      begins (tok w) ('<' :: s) = true := by
  intro s hb
  have hb2 : begins (('@' :: w) ++ ['>']) (replaceAll (tok u) (repOf nm) s) = true := by
    simp only [tok, begins, Bool.and_eq_true, beq_iff_eq, beq_self_eq_true, Bool.true_and,
      List.cons_append] at hb ⊢
    exact hb
  suffices hs : begins (('@' :: w) ++ ['>']) s = true by
    simp only [tok, begins, Bool.and_eq_true, beq_iff_eq, beq_self_eq_true, Bool.true_and]
    simp only [List.cons_append, begins, Bool.and_eq_true, beq_iff_eq] at hs
    exact hs
  cases s with
  | nil =>
    rw [replaceAll_nil, begins_nil_of_ne (('@' :: w) ++ ['>']) (by simp)] at hb2
    exact Bool.noConfusion hb2
  | cons c cs =>
    cases hcase : begins (tok u) (c :: cs) with
    | true =>
      rw [replaceAll_cons_pos _ _ _ _ (tok_ne_nil u) hcase] at hb2
      exfalso
      have hb3 : begins (w ++ ['>'])
          (nm ++ replaceAll (tok u) (repOf nm) (List.drop (tok u).length (c :: cs))) =
          true := by
        simp only [repOf, List.cons_append, begins, Bool.and_eq_true, beq_iff_eq,
          beq_self_eq_true, Bool.true_and] at hb2
        exact hb2
      have hcontra := begins_through '>' nm w _ hn hb3
      rw [hnw] at hcontra
      exact Bool.noConfusion hcontra
    | false =>
      rw [replaceAll_cons_neg _ _ _ _ (tok_ne_nil u) hcase] at hb2
      simp only [List.cons_append, begins, Bool.and_eq_true, beq_iff_eq] at hb2 ⊢
      exact ⟨hb2.1, begins_close_replaceAll u nm hn cs w haw hgw hb2.2⟩

theorem find_eq_of_agree (f g : (List Char × List Char) → Bool) :
    ∀ l : List (List Char × List Char), (∀ p ∈ l, f p = g p) →
      l.find? f = l.find? g := by
  intro l
  induction l with
  | nil => intro _; rfl
  | cons a l ih =>
    intro h
    have ha := h a (List.mem_cons_self _ _)
    cases hfa : f a with
    | true =>
      rw [List.find?_cons_of_pos _ hfa, List.find?_cons_of_pos _ (by rw [← ha]; exact hfa)]
    | false =>
      rw [List.find?_cons_of_neg _ (by simp [hfa]),
        List.find?_cons_of_neg _ (by simp [← ha, hfa]),
        ih (fun p hp => h p (List.mem_cons.mpr (Or.inr hp)))]

theorem one_pass_commute (u : List Char × List Char) (rest : List (List Char × List Char))
    (hidu : '<' ∉ u.1 ∧ '@' ∉ u.1 ∧ '>' ∉ u.1)
    (hnu : '<' ∉ u.2 ∧ '>' ∉ u.2)
    (hrest : ∀ p ∈ rest, '<' ∉ p.1 ∧ '@' ∉ p.1 ∧ '>' ∉ p.1)
    (hcross : ∀ p ∈ rest, begins u.2 p.1 = false) :
    ∀ (n : Nat) (text : List Char), text.length ≤ n →
      specNormalize rest (replaceAll (tok u.1) (repOf u.2) text) =
      specNormalize (u :: rest) text := by
  intro n
  induction n with
  | zero =>
    intro text ht
    have htext : text = [] := List.eq_nil_of_length_eq_zero (Nat.le_zero.mp ht)
    subst htext
    rfl
  | succ n ih =>
    intro text ht
    cases text with
    | nil => rfl
    | cons c cs =>
      have hp : tok u.1 ≠ [] := tok_ne_nil u.1
      have ht2 : cs.length + 1 ≤ n + 1 := by simpa using ht
      cases hbu : begins (tok u.1) (c :: cs) with
      | true =>
        obtain ⟨s, hs⟩ := (begins_iff_exists _ _).mp hbu
        have hdrop : List.drop (tok u.1).length (c :: cs) = s := by
          rw [hs, List.drop_left]
        have hslen : s.length ≤ n := by
          have hlen := congrArg List.length hs
          simp only [List.length_cons, List.length_append, tok_length] at hlen
          omega
        have hpre : ∀ d ∈ repOf u.2, d ≠ '<' := by
          intro d hd
          simp only [repOf] at hd
          rcases List.mem_cons.mp hd with rfl | hd2
          · decide
          · intro hdeq
            rw [hdeq] at hd2
            exact hnu.1 hd2
        rw [replaceAll_cons_pos _ _ _ _ hp hbu, hdrop,
          specNormalize_pass rest (repOf u.2) _ hpre, ih s hslen,
          specNormalize_match (u :: rest) (c :: cs) u (List.find?_cons_of_pos _ hbu), hdrop]
      | false =>
        have hfmu : findMatch (u :: rest) (c :: cs) = findMatch rest (c :: cs) :=
          List.find?_cons_of_neg _ (by simp [hbu])
        cases hfm : findMatch rest (c :: cs) with
        | some v =>
          have hv : v ∈ rest := List.mem_of_find?_eq_some hfm
          have hbv : begins (tok v.1) (c :: cs) = true := by
            simpa using List.find?_some hfm
          obtain ⟨s, hs⟩ := (begins_iff_exists _ _).mp hbv
          have hslen : s.length ≤ n := by
            have hlen := congrArg List.length hs
            simp only [List.length_cons, List.length_append, tok_length] at hlen
            omega
          have hpass : replaceAll (tok u.1) (repOf u.2) (c :: cs) =
              tok v.1 ++ replaceAll (tok u.1) (repOf u.2) s := by
            rw [hs]
            apply replaceAll_pass _ _ hp
            intro a1 d a2 hsplit
            cases a1 with
            | nil =>
              have hda : tok v.1 = d :: a2 := by simpa using hsplit
              have he : d :: (a2 ++ s) = c :: cs := by
                rw [hs, hda]
                rfl
              rw [he]
              exact hbu
            | cons x a1' =>
              have hxa : '<' :: ('@' :: (v.1 ++ ['>'])) = x :: (a1' ++ d :: a2) := by
                simpa [tok] using hsplit
              have h2 : '@' :: (v.1 ++ ['>']) = a1' ++ d :: a2 :=
                (List.cons.injEq _ _ _ _ |>.mp hxa).2
              have hmem : d ∈ '@' :: (v.1 ++ ['>']) := by
                rw [h2]
                exact List.mem_append.mpr (Or.inr (List.mem_cons_self _ _))
              have hd : d ≠ '<' := by
                rcases List.mem_cons.mp hmem with rfl | hmem2
                · decide
                · rcases List.mem_append.mp hmem2 with h3 | h3
                  · intro hdeq
                    rw [hdeq] at h3
                    exact (hrest v hv).1 h3
                  · have h4 : d = '>' := by simpa using h3
                    subst h4
                    decide
              cases hbb : begins (tok u.1) (d :: (a2 ++ s)) with
              | false => rfl
              | true =>
                exfalso
                obtain ⟨t, htt⟩ := (begins_iff_exists _ _).mp hbb
                have hdlt : d = '<' := by
                  rw [tok, List.cons_append] at htt
                  exact (List.cons.injEq _ _ _ _ |>.mp htt).1
                exact hd hdlt
          have hfm2 : findMatch rest
              (tok v.1 ++ replaceAll (tok u.1) (repOf u.2) s) = some v := by
            have hagree : ∀ p ∈ rest,
                begins (tok p.1) (tok v.1 ++ replaceAll (tok u.1) (repOf u.2) s) =
                begins (tok p.1) (c :: cs) := by
              intro p hpmem
              cases hb1 : begins (tok p.1)
                  (tok v.1 ++ replaceAll (tok u.1) (repOf u.2) s) with
              | true =>
                have hpv : p.1 = v.1 :=
                  tok_begins_eq p.1 v.1 _ (hrest p hpmem).2.2 (hrest v hv).2.2 hb1
                rw [hpv, hs]
                exact (begins_append _ _).symm
              | false =>
                cases hb2 : begins (tok p.1) (c :: cs) with
                | false => rfl
                | true =>
                  exfalso
                  have hpv : p.1 = v.1 := by
                    apply tok_begins_eq p.1 v.1 s (hrest p hpmem).2.2 (hrest v hv).2.2
                    rw [← hs]
                    exact hb2
                  rw [hpv] at hb1
                  have hba := begins_append (tok v.1) (replaceAll (tok u.1) (repOf u.2) s)
                  rw [hb1] at hba
                  exact Bool.noConfusion hba
            have hfe := find_eq_of_agree
              (fun p => begins (tok p.1) (tok v.1 ++ replaceAll (tok u.1) (repOf u.2) s))
              (fun p => begins (tok p.1) (c :: cs)) rest hagree
            exact hfe.trans hfm
          rw [hpass, specNormalize_match rest _ v hfm2, List.drop_left, ih s hslen,
            specNormalize_match (u :: rest) (c :: cs) v (by rw [hfmu]; exact hfm),
            show List.drop (tok v.1).length (c :: cs) = s from by rw [hs]; exact List.drop_left _ _]
        | none =>
          rw [replaceAll_cons_neg _ _ _ _ hp hbu]
          have hnone2 : findMatch rest
              (c :: replaceAll (tok u.1) (repOf u.2) cs) = none := by
            apply List.find?_eq_none.mpr
            intro w hw hbw
            have hc : c = '<' := by
              obtain ⟨t, htt⟩ := (begins_iff_exists _ _).mp hbw
              rw [show tok w.1 = '<' :: ('@' :: (w.1 ++ ['>'])) from rfl,
                List.cons_append] at htt
              exact (List.cons.injEq _ _ _ _ |>.mp htt).1
            subst hc
            have hbw2 := begins_tok_replaceAll u.1 u.2 w.1 hnu.2 (hrest w hw).2.1
              (hrest w hw).2.2 (hcross w hw) cs hbw
            exact (List.find?_eq_none.mp hfm w hw) hbw2
          rw [specNormalize_nomatch rest c _ hnone2, ih cs (by omega),
            specNormalize_nomatch (u :: rest) c cs (by rw [hfmu]; exact hfm)]

theorem specNormalize_nilUsers : ∀ s : List Char, specNormalize [] s = s := by
  intro s
  induction s with
  | nil => rfl
  | cons c cs ih => rw [specNormalize_nomatch [] c cs rfl, ih]

theorem normalize_eq_spec :
    ∀ users : List (List Char × List Char), cleanUsers users →
      ∀ text : List Char, normalize_slack_text text users = specNormalize users text := by
  intro users
  induction users with
  | nil => intro _ text; exact (specNormalize_nilUsers text).symm
  | cons u rest ih =>
    intro h text
    have hu := h u (List.mem_cons_self _ _)
    have hre : cleanUsers rest := by
      intro p hp
      obtain ⟨h1, h2, h3⟩ := h p (List.mem_cons.mpr (Or.inr hp))
      exact ⟨h1, h2, fun q hq => h3 q (List.mem_cons.mpr (Or.inr hq))⟩
    have hstep : normalize_slack_text text (u :: rest) =
        normalize_slack_text (replaceAll (tok u.1) (repOf u.2) text) rest := rfl
    rw [hstep, ih hre _]
    exact one_pass_commute u rest hu.1 hu.2.1
      (fun p hp => (h p (List.mem_cons.mpr (Or.inr hp))).1)
      (fun p hp => hu.2.2 p (List.mem_cons.mpr (Or.inr hp)))
      text.length text (le_refl _)

theorem eq_of_mem_nodup_key :
    ∀ users : List (List Char × List Char), (users.map Prod.fst).Nodup →
      ∀ p ∈ users, ∀ q ∈ users, p.1 = q.1 → p = q := by
  intro users
  induction users with
  | nil => intro _ p hp; simp at hp
  | cons a l ih =>
    intro hnd p hp q hq heq
    rw [List.map_cons] at hnd
    obtain ⟨ha, hl⟩ := List.nodup_cons.mp hnd
    rcases List.mem_cons.mp hp with rfl | hp2 <;> rcases List.mem_cons.mp hq with rfl | hq2
    · rfl
    · exfalso
      apply ha
      rw [heq]
      exact List.mem_map.mpr ⟨q, hq2, rfl⟩
    · exfalso
      apply ha
      rw [← heq]
      exact List.mem_map.mpr ⟨p, hp2, rfl⟩
    · exact ih hl p hp2 q hq2 heq

theorem find_of_perm (f : (List Char × List Char) → Bool)
    (users users' : List (List Char × List Char)) (hperm : users.Perm users')
    (huniq : ∀ p ∈ users, ∀ q ∈ users, f p = true → f q = true → p = q) :
    users.find? f = users'.find? f := by
  cases hf : users.find? f with
  | some p =>
    have hp : p ∈ users := List.mem_of_find?_eq_some hf
    have hfp : f p = true := List.find?_some hf
    cases hf' : users'.find? f with
    | some q =>
      have hq : q ∈ users := hperm.mem_iff.mpr (List.mem_of_find?_eq_some hf')
      rw [huniq p hp q hq hfp (List.find?_some hf')]
    | none =>
      exfalso
      exact (List.find?_eq_none.mp hf' p (hperm.mem_iff.mp hp)) hfp
  | none =>
    cases hf' : users'.find? f with
    | some q =>
      exfalso
      have hq : q ∈ users := hperm.mem_iff.mpr (List.mem_of_find?_eq_some hf')
      exact (List.find?_eq_none.mp hf q hq) (List.find?_some hf')
    | none => rfl

theorem specNormalize_perm (users users' : List (List Char × List Char))
    (h : cleanUsers users) (hnd : (users.map Prod.fst).Nodup) (hperm : users.Perm users') :
    ∀ (n : Nat) (s : List Char), s.length ≤ n →
      specNormalize users s = specNormalize users' s := by
  intro n
  induction n with
  | zero =>
    intro s hs
    have hnil : s = [] := List.eq_nil_of_length_eq_zero (Nat.le_zero.mp hs)
    subst hnil
    rfl
  | succ n ih =>
    intro s hs
    cases s with
    | nil => rfl
    | cons c cs =>
      have hfm : findMatch users (c :: cs) = findMatch users' (c :: cs) := by
        apply find_of_perm _ _ _ hperm
        intro p hp q hq hfp hfq
        have hfp2 : begins (tok p.1) (c :: cs) = true := by simpa using hfp
        have hfq2 : begins (tok q.1) (c :: cs) = true := by simpa using hfq
        have hpq : p.1 = q.1 := by
          rcases begins_of_begins_both (tok p.1) (tok q.1) (c :: cs) hfp2 hfq2 with hb | hb
          · rw [← List.append_nil (tok q.1)] at hb
            exact tok_begins_eq p.1 q.1 [] (h p hp).1.2.2 (h q hq).1.2.2 hb
          · rw [← List.append_nil (tok p.1)] at hb
            exact (tok_begins_eq q.1 p.1 [] (h q hq).1.2.2 (h p hp).1.2.2 hb).symm
        exact eq_of_mem_nodup_key users hnd p hp q hq hpq
      cases hm : findMatch users (c :: cs) with
      | some p =>
        rw [specNormalize_match users _ p hm,
          specNormalize_match users' _ p (by rw [← hfm]; exact hm)]
        congr 1
        apply ih
        simp only [List.length_drop, List.length_cons, tok_length]
        have hs2 : cs.length + 1 ≤ n + 1 := by simpa using hs
        omega
      | none =>
        rw [specNormalize_nomatch users c cs hm,
          specNormalize_nomatch users' c cs (by rw [← hfm]; exact hm),
          ih cs (by
            have hs2 : cs.length + 1 ≤ n + 1 := by simpa using hs
            omega)]

/-- C3 as stated (replacement of each known mention token by its name,
unknown tokens untouched, i.e. agreement with the simultaneous
single-pass replacement) fails on the code: a name that itself spells a
mention token is cascaded through by later iterations of the fold. -/
theorem c3_counterexample :
    normalize_slack_text ("<<@A>>".data)
        [("A".data, "B".data), ("B".data, "bob".data)] ≠
      specNormalize [("A".data, "B".data), ("B".data, "bob".data)] ("<<@A>>".data) := by
  decide

/-- C3 amended: for every text, and every user mapping whose ids contain
none of `<`, `@`, `>`, whose names contain neither `<` nor `>`, and in
which no name is an initial segment of any id (all true of real Slack ids
and names), the normalizer replaces every occurrence of `<@{id}>` for a
mapped id by `@{name}` and leaves occurrences for unmapped ids unchanged:
it equals the spec's simultaneous single-pass replacement. -/
theorem c3_mentions_replaced (users : List (List Char × List Char)) (text : List Char)
    (h : cleanUsers users) :
    normalize_slack_text text users = specNormalize users text :=
  normalize_eq_spec users h text

/-- Witness for C3 on the spec's example: the mapping `U1 -> alice`. -/
theorem c3_witness :
    normalize_slack_text ("hi <@U1> and <@U2>".data) usersW =
      specNormalize usersW ("hi <@U1> and <@U2>".data) ∧
    normalize_slack_text ("hi <@U1> and <@U2>".data) usersW =
      ("hi @alice and <@U2>".data) :=
  ⟨c3_mentions_replaced usersW ("hi <@U1> and <@U2>".data) (by unfold cleanUsers; decide),
    by decide⟩

/-- C9 as stated fails: iteration order matters when one user's name is
another user's id, because the replaced text is rescanned by later
entries of the fold. -/
theorem c9_counterexample :
    normalize_slack_text ("<<@A>>".data)
        [("A".data, "B".data), ("B".data, "bob".data)] ≠
      normalize_slack_text ("<<@A>>".data)
        [("B".data, "bob".data), ("A".data, "B".data)] := by
  decide

/-- C9 amended: for every text and every mapping with pairwise distinct
ids, ids free of `<`, `@`, `>`, names free of `<` and `>`, and no name an
initial segment of any id, the normalizer's output is the same for every
iteration order of the mapping. -/
theorem c9_order_invariance (users users' : List (List Char × List Char)) (text : List Char)
    (h : cleanUsers users) (hnd : (users.map Prod.fst).Nodup) (hperm : users.Perm users') :
    normalize_slack_text text users = normalize_slack_text text users' := by
  have h' : cleanUsers users' := by
    intro p hp
    obtain ⟨h1, h2, h3⟩ := h p (hperm.mem_iff.mpr hp)
    exact ⟨h1, h2, fun q hq => h3 q (hperm.mem_iff.mpr hq)⟩
  rw [normalize_eq_spec users h text, normalize_eq_spec users' h' text]
  exact specNormalize_perm users users' h hnd hperm text.length text (le_refl _)

/-- Witness for C9 at a two-user mapping and its transposition. -/
theorem c9_witness :
    normalize_slack_text ("hi <@U1> <@U2>".data)
        [("U1".data, "alice".data), ("U2".data, "bob".data)] =
      normalize_slack_text ("hi <@U1> <@U2>".data)
        [("U2".data, "bob".data), ("U1".data, "alice".data)] :=
  c9_order_invariance _ _ _ (by unfold cleanUsers; decide) (by decide) (by decide)
